import Mathlib

/-!
Verification of the multi-task dataset composition subsystem
(`ocpmodels/trainers/mt/dataset.py` and
`ocpmodels/trainers/mt/dataset_transform.py`).

Datasets are modelled as records holding a reported size, a fallible
integer-indexed item accessor (Python exceptions become `Except` errors),
and an `atoms_metadata` sequence.  Python float arithmetic in the
resampling computation is modelled with exact rationals; `numpy` integer
ceilings become `Int.ceil`.
-/

/-- Errors raised by the dataset composition code: Python `IndexError`,
`ValueError` for size preconditions, `ZeroDivisionError` from `i % 0`,
`AssertionError` for a missing configured field, einops shape failures,
and `TypeError` for non-`Data` items. -/
inductive DatasetError : Type where
  | IndexOutOfRange : DatasetError
  | SizeMismatch : DatasetError
  | ZeroDivision : DatasetError
  | MissingField : DatasetError
  | ShapeMismatch : DatasetError
  | TypeMismatch : DatasetError
  deriving DecidableEq, Repr

instance instDecEqExcept {E A : Type} [DecidableEq E] [DecidableEq A] :
    DecidableEq (Except E A) := fun x y =>
  match x, y with
  | .ok a, .ok b => if h : a = b then .isTrue (by rw [h]) else .isFalse (by simp [h])
  | .error a, .error b => if h : a = b then .isTrue (by rw [h]) else .isFalse (by simp [h])
  | .ok _, .error _ => .isFalse (by simp)
  | .error _, .ok _ => .isFalse (by simp)

/-- A sized, integer-indexable dataset with an `atoms_metadata` sequence.
`get` models `__getitem__` (an `Except.error` models a raised exception);
`size` models `__len__`; `atoms_metadata` models the `atoms_metadata`
property.  `α` is the item type, `μ` the per-item metadata entry type. -/
structure Dataset (α : Type) (μ : Type) where
  size : ℕ
  get : ℤ → Except DatasetError α
  atoms_metadata : List μ

/-- `dataset_transform(dataset, transform, copy_data)` from
`dataset_transform.py`: a proxy overriding only `__getitem__`, which
fetches the wrapped item and applies `transform` to it (a raised error
propagates).  `copy_data` deep-copies the item first; on immutable model
values a deep copy is the identity, so the flag does not change the
result.  Length and metadata are delegated to the wrapped dataset. -/
def dataset_transform {α β μ : Type} (dataset : Dataset α μ)
    (transform : α → Except DatasetError β) (copy_data : Bool := false) :
    Dataset β μ :=
  { size := dataset.size
  , get := fun idx => (dataset.get idx).bind fun data =>
      let data := if copy_data then data else data
      transform data
  , atoms_metadata := dataset.atoms_metadata }

/-- `np.resize(metadata, (n,))`: cyclic tiling of a sequence to length `n`
(empty input gives an empty result in the model). -/
def npResize {μ : Type} (l : List μ) (n : ℕ) : List μ :=
  (List.range n).filterMap fun i => l.get? (i % l.length)

/-- The `_ExpandedDataset` proxy of `expand_dataset` in
`dataset_transform.py`: reports length `n`; `__getitem__` rejects indices
outside `[0, n)` with `IndexOutOfRange` and otherwise delegates to the
wrapped dataset at `index % og_size` (Python raises `ZeroDivisionError`
when `og_size = 0`); the metadata is the wrapped metadata resized
cyclically to length `n`. -/
def expandedDataset {α μ : Type} (dataset : Dataset α μ) (n : ℕ) :
    Dataset α μ :=
  { size := n
  , get := fun index =>
      if index < 0 ∨ (n : ℤ) ≤ index then .error .IndexOutOfRange
      else if dataset.size = 0 then .error .ZeroDivision
      else dataset.get (index % (dataset.size : ℤ))
  , atoms_metadata := npResize dataset.atoms_metadata n }

/-- `expand_dataset(dataset, n)` from `dataset_transform.py`: fails with
`SizeMismatch` when `og_size > n`; otherwise wraps the dataset in the
`_ExpandedDataset` proxy. -/
def expand_dataset {α μ : Type} (dataset : Dataset α μ) (n : ℕ) :
    Except DatasetError (Dataset α μ) :=
  let og_size := dataset.size
  if og_size > n then .error .SizeMismatch
  else .ok (expandedDataset dataset n)

theorem expandedDataset_get {α μ : Type} (dataset : Dataset α μ) (n : ℕ)
    (index : ℤ) :
    (expandedDataset dataset n).get index =
      if index < 0 ∨ (n : ℤ) ≤ index then .error .IndexOutOfRange
      else if dataset.size = 0 then .error .ZeroDivision
      else dataset.get (index % (dataset.size : ℤ)) := rfl

/-- `first_n_transform(dataset, n)` from `dataset_transform.py`: fails with
`SizeMismatch` when `len(dataset) < n`; otherwise reports length `n`,
rejects indices outside `[0, n)`, and delegates in-range indices
unchanged.  Metadata is the first `n` entries of the wrapped metadata. -/
def first_n_transform {α μ : Type} (dataset : Dataset α μ) (n : ℕ) :
    Except DatasetError (Dataset α μ) :=
  if dataset.size < n then .error .SizeMismatch
  else .ok
    { size := n
    , get := fun idx =>
        if idx < 0 ∨ (n : ℤ) ≤ idx then .error .IndexOutOfRange
        else dataset.get idx
    , atoms_metadata := dataset.atoms_metadata.take n }

/-- Modelled from the spec: `np.random.default_rng(seed).choice(m, n,
replace=False)` (numpy is external to this repository).  The spec requires
only that the draw is a deterministic function of the seed and yields `n`
distinct indices from `[0, m)`; the model takes the first `n` entries of a
seed-determined permutation of `[0, m)`. -/
def np_choice (m n seed : ℕ) : List ℕ :=
  ((List.range m).rotate seed).take n

/-- The `_SampleNDataset` proxy of `sample_n_transform` in
`dataset_transform.py`: draws `sampled_indices` at construction time,
reports length `n`, rejects indices outside `[0, n)`, and delegates index
`idx` to the wrapped dataset at `sampled_indices[idx]`.  Metadata is the
wrapped metadata filtered to the sampled indices. -/
def sampledDataset {α μ : Type} (dataset : Dataset α μ) (n seed : ℕ) :
    Dataset α μ :=
  let sampled_indices := np_choice dataset.size n seed
  { size := n
  , get := fun idx =>
      if idx < 0 ∨ (n : ℤ) ≤ idx then .error .IndexOutOfRange
      else dataset.get ((sampled_indices.getD idx.toNat 0 : ℕ) : ℤ)
  , atoms_metadata :=
      sampled_indices.filterMap fun j => dataset.atoms_metadata.get? j }

/-- `sample_n_transform(dataset, n, seed)` from `dataset_transform.py`:
fails with `SizeMismatch` when `len(dataset) < n`; otherwise wraps the
dataset in the `_SampleNDataset` proxy. -/
def sample_n_transform {α μ : Type} (dataset : Dataset α μ) (n seed : ℕ) :
    Except DatasetError (Dataset α μ) :=
  if dataset.size < n then .error .SizeMismatch
  else .ok (sampledDataset dataset n seed)

theorem sampledDataset_get {α μ : Type} (dataset : Dataset α μ) (n seed : ℕ)
    (idx : ℤ) :
    (sampledDataset dataset n seed).get idx =
      if idx < 0 ∨ (n : ℤ) ≤ idx then .error .IndexOutOfRange
      else dataset.get
        (((np_choice dataset.size n seed).getD idx.toNat 0 : ℕ) : ℤ) := rfl

/-- `np.min` over a nonempty vector (the empty case never occurs in the
composer; the model returns `0` there). -/
def npMin : List ℚ → ℚ
  | [] => 0
  | x :: xs => xs.foldl min x

/-- The composer's `target_size = sum(dataset_sizes) / sum(ratios)` from
`_merged_dataset` in `dataset.py`. -/
def target_size (dataset_sizes : List ℕ) (ratios_list : List ℚ) : ℚ :=
  ((dataset_sizes.sum : ℕ) : ℚ) / ratios_list.sum

/-- The composer's raw expansion factors
`target_size * ratios / dataset_sizes` from `_merged_dataset`. -/
def expansion_factors (dataset_sizes : List ℕ) (ratios_list : List ℚ) :
    List ℚ :=
  List.zipWith
    (fun (s : ℕ) (r : ℚ) => target_size dataset_sizes ratios_list * r / (s : ℚ))
    dataset_sizes ratios_list

/-- The factors after the first rescaling step
`expansion_factors / np.min(expansion_factors)` from `_merged_dataset`. -/
def rescaled_factors (dataset_sizes : List ℕ) (ratios_list : List ℚ) :
    List ℚ :=
  let f := expansion_factors dataset_sizes ratios_list
  f.map fun x => x / npMin f

/-- `_merged_dataset(dataset_sizes_list, ratios_list)` from `dataset.py`:
`samples_per_dataset = ceil(dataset_sizes * (expansion_factors /
np.min(expansion_factors)))` where `expansion_factors` has already been
divided once by its minimum. -/
def _merged_dataset (dataset_sizes_list : List ℕ) (ratios_list : List ℚ) :
    List ℤ :=
  let g := rescaled_factors dataset_sizes_list ratios_list
  List.zipWith (fun (s : ℕ) (x : ℚ) => ⌈(s : ℚ) * (x / npMin g)⌉)
    dataset_sizes_list g

/-- Modelled from the spec: the single-step variant of the count formula,
`ceil(s_i * f_i)` applied directly to the already min-normalized factors
(the spec's §4.4 step 4 formula with the second division removed), for
comparison with `_merged_dataset`. -/
def _merged_dataset_single (dataset_sizes_list : List ℕ)
    (ratios_list : List ℚ) : List ℤ :=
  let g := rescaled_factors dataset_sizes_list ratios_list
  List.zipWith (fun (s : ℕ) (x : ℚ) => ⌈(s : ℚ) * x⌉) dataset_sizes_list g

/-- Index lookup of `torch.utils.data.ConcatDataset`: walk the datasets in
order, delegating to the first one whose range contains the (already
non-negative) index. -/
def concatGet {α μ : Type} : List (Dataset α μ) → ℤ → Except DatasetError α
  | [], _ => .error .IndexOutOfRange
  | d :: ds, i => if i < (d.size : ℤ) then d.get i else concatGet ds (i - (d.size : ℤ))

/-- `torch.utils.data.ConcatDataset`: length is the sum of the lengths;
item access resolves a global index (negative indices wrap once from the
end) to the owning dataset's local range, in dataset order. -/
def ConcatDataset {α μ : Type} (datasets : List (Dataset α μ)) : Dataset α μ :=
  { size := (datasets.map (·.size)).sum
  , get := fun idx =>
      let total : ℤ := ((datasets.map (·.size)).sum : ℕ)
      let j := if idx < 0 then idx + total else idx
      if j < 0 ∨ total ≤ j then .error .IndexOutOfRange else concatGet datasets j
  , atoms_metadata := (datasets.map (·.atoms_metadata)).flatten }

/-- Ratio normalization `[r / sum(ratios) for r in ratios]` from
`_combine_datasets` in `dataset.py`. -/
def normalizeRatios (ratios : List ℚ) : List ℚ :=
  ratios.map fun r => r / ratios.sum

/-- `_combine_datasets` from `dataset.py`, specialized to the
`FullyBalancedSamplingConfig` branch (raw ratios `[1.0] * k`): normalize
the ratios, compute `_merged_dataset` counts, expand every dataset to its
count, and concatenate the expanded datasets. -/
def _combine_datasets_fullyBalanced {α μ : Type} (datasets : List (Dataset α μ)) :
    Except DatasetError (Dataset α μ) := do
  let dataset_sizes := datasets.map (·.size)
  let ratios := normalizeRatios (List.replicate dataset_sizes.length (1 : ℚ))
  let expanded_dataset_sizes := _merged_dataset dataset_sizes ratios
  let expanded ←
    (List.zipWith (fun d n => expand_dataset d n.toNat) datasets
      expanded_dataset_sizes).mapM id
  return ConcatDataset expanded

/-- A concrete sized dataset over items `0, …, m-1` (used for witnesses):
in-range access returns the index itself, anything else raises. -/
def natDataset (m : ℕ) : Dataset ℕ ℕ :=
  { size := m
  , get := fun i =>
      if 0 ≤ i ∧ i < (m : ℤ) then .ok i.toNat else .error .IndexOutOfRange
  , atoms_metadata := List.range m }

/-- The item produced by `expand_dataset(d, n)` at index `i`, with a
construction failure propagated as that failure (used to state facts about
the composed behaviour without naming the intermediate proxy). -/
def getExpanded {α μ : Type} (dataset : Dataset α μ) (n : ℕ) (i : ℤ) :
    Except DatasetError α :=
  match expand_dataset dataset n with
  | .ok e => e.get i
  | .error err => .error err

/-- The `one_hot_targets` configuration: names of graph-level and
node-level fields to be one-hot expanded. -/
structure OneHotTargetsConfig where
  graph_level : List String
  node_level : List String

/-- A `torch_geometric.data.Data` item, modelled as an association list of
named numeric fields (tensors flattened to their rational entries; a
graph-level scalar is a singleton), plus the fields the tagging transform
itself introduces: `task_idx`, `task_mask` (a boolean matrix, so the
leading singleton dimension of `rearrange(onehot, "t -> 1 t")` is
visible), and the `<key>_onehot` matrices. -/
structure Data where
  attrs : List (String × List ℚ)
  task_idx : Option ℕ
  task_mask : Option (List (List Bool))
  onehot_attrs : List (String × List (List ℚ))
  deriving DecidableEq

/-- `F.one_hot(task_idx, num_classes=t).bool()`: the boolean vector of
length `t` that is `true` exactly at position `k`. -/
def oneHot (t k : ℕ) : List Bool :=
  (List.range t).map fun j => decide (j = k)

/-- The elementwise product of a scalar with a boolean one-hot vector
(`value * onehot` under torch's bool-to-float promotion): the scalar in
every `true` slot, `0` elsewhere. -/
def rowOf (onehot : List Bool) (x : ℚ) : List ℚ :=
  onehot.map fun b => if b then x else 0

/-- `_update_graph_value(data, key, onehot)` from `dataset.py`: reads the
named field (`MissingField` if absent), flattens it and asserts via
`rearrange(value.view(-1), "1 -> 1 1")` that it is a single scalar
(`ShapeMismatch` otherwise), multiplies the resulting `(1,1)` tensor by
the boolean one-hot `(t,)` vector — broadcasting to `(1,t)` — and stores
the result as `<key>_onehot`. -/
def _update_graph_value (data : Data) (key : String) (onehot : List Bool) :
    Except DatasetError Data :=
  match data.attrs.lookup key with
  | none => .error .MissingField
  | some value =>
    match value with
    | [x] => .ok { data with onehot_attrs :=
        (key ++ "_onehot", [rowOf onehot x]) :: data.onehot_attrs }
    | _ => .error .ShapeMismatch

/-- `_update_node_value(data, key, onehot)` from `dataset.py` for a
rank-one per-node field: reads the named field (`MissingField` if absent)
and stores, as `<key>_onehot`, the `(n,t)` matrix obtained by multiplying
`rearrange(value, "n -> n 1")` with the one-hot vector (the rank-one case
has two result dimensions, so no axis move happens). -/
def _update_node_value (data : Data) (key : String) (onehot : List Bool) :
    Except DatasetError Data :=
  match data.attrs.lookup key with
  | none => .error .MissingField
  | some value =>
    .ok { data with onehot_attrs :=
      (key ++ "_onehot", value.map (rowOf onehot)) :: data.onehot_attrs }

/-- The `_transform` closure of `_create_split_dataset` in `dataset.py`:
sets `task_idx`, computes the boolean one-hot vector (torch rejects
`task_idx ≥ num_classes`), stores it reshaped to `1 × t` as `task_mask`,
then rewrites every configured graph-level and node-level field into its
`_onehot` form. -/
def _transform (task_idx total_num_tasks : ℕ) (one_hot_targets : OneHotTargetsConfig)
    (data : Data) : Except DatasetError Data :=
  if total_num_tasks ≤ task_idx then .error .IndexOutOfRange
  else
    let onehot := oneHot total_num_tasks task_idx
    let data1 := { data with task_idx := some task_idx, task_mask := some [onehot] }
    (one_hot_targets.graph_level.foldlM
        (fun d key => _update_graph_value d key onehot) data1).bind
      fun data2 =>
        one_hot_targets.node_level.foldlM
          (fun d key => _update_node_value d key onehot) data2

/-- The dataset wrapping done by `_create_split_dataset`: the raw dataset
decorated with the task-tagging transform via `dataset_transform`. -/
def tag_task {μ : Type} (dataset : Dataset Data μ) (task_idx total_num_tasks : ℕ)
    (one_hot_targets : OneHotTargetsConfig) : Dataset Data μ :=
  dataset_transform dataset (_transform task_idx total_num_tasks one_hot_targets)

/-- A one-item dataset over a fixed `Data` record (used for witnesses). -/
def singletonDataset (d : Data) : Dataset Data ℕ :=
  { size := 1
  , get := fun i => if i = 0 then .ok d else .error .IndexOutOfRange
  , atoms_metadata := [0] }

theorem foldl_min_le_init (l : List ℚ) (a : ℚ) : l.foldl min a ≤ a := by
  induction l generalizing a with
  | nil => simp
  | cons x xs ih =>
    simp only [List.foldl_cons]
    exact le_trans (ih (min a x)) (min_le_left a x)

theorem foldl_min_le_mem {x : ℚ} {l : List ℚ} (a : ℚ) (hx : x ∈ l) :
    l.foldl min a ≤ x := by
  induction l generalizing a with
  | nil => cases hx
  | cons y ys ih =>
    simp only [List.foldl_cons]
    rcases List.mem_cons.1 hx with h | h
    · subst h
      exact le_trans (foldl_min_le_init ys (min a x)) (min_le_right a x)
    · exact ih (min a y) h

theorem foldl_min_mem (l : List ℚ) (a : ℚ) :
    l.foldl min a = a ∨ l.foldl min a ∈ l := by
  induction l generalizing a with
  | nil => left; rfl
  | cons x xs ih =>
    simp only [List.foldl_cons]
    rcases ih (min a x) with h | h
    · rcases min_cases a x with ⟨hm, _⟩ | ⟨hm, _⟩
      · left; rw [h, hm]
      · right; rw [h, hm]; exact List.mem_cons_self x xs
    · right; exact List.mem_cons_of_mem x h

theorem npMin_mem {l : List ℚ} (h : l ≠ []) : npMin l ∈ l := by
  match l with
  | [] => exact absurd rfl h
  | x :: xs =>
    rcases foldl_min_mem xs x with h' | h'
    · rw [npMin, h']; exact List.mem_cons_self x xs
    · rw [npMin]; exact List.mem_cons_of_mem x h'

theorem npMin_le {l : List ℚ} {x : ℚ} (hx : x ∈ l) : npMin l ≤ x := by
  match l with
  | y :: ys =>
    rcases List.mem_cons.1 hx with h | h
    · subst h; exact foldl_min_le_init ys x
    · exact foldl_min_le_mem y h

theorem npMin_pos {l : List ℚ} (h : l ≠ []) (hp : ∀ x ∈ l, 0 < x) :
    0 < npMin l := hp _ (npMin_mem h)

theorem foldl_min_div (l : List ℚ) (a c : ℚ) (hc : 0 ≤ c) :
    (l.map fun x => x / c).foldl min (a / c) = l.foldl min a / c := by
  induction l generalizing a with
  | nil => rfl
  | cons x xs ih =>
    simp only [List.map_cons, List.foldl_cons]
    rw [show min (a / c) (x / c) = min a x / c from min_div_div_right hc a x]
    exact ih (min a x)

theorem npMin_map_div {l : List ℚ} (h : l ≠ []) {c : ℚ} (hc : 0 ≤ c) :
    npMin (l.map fun x => x / c) = npMin l / c := by
  match l with
  | x :: xs =>
    simp only [npMin, List.map_cons]
    exact foldl_min_div xs x c hc

theorem npMin_rescaled {f : List ℚ} (hne : f ≠ []) (hp : ∀ x ∈ f, 0 < x) :
    npMin (f.map fun x => x / npMin f) = 1 := by
  have hm : 0 < npMin f := npMin_pos hne hp
  rw [npMin_map_div hne hm.le, div_self (ne_of_gt hm)]

theorem expansion_factors_length (sizes : List ℕ) (ratios : List ℚ)
    (hlen : ratios.length = sizes.length) :
    (expansion_factors sizes ratios).length = sizes.length := by
  simp only [expansion_factors, List.length_zipWith, hlen, min_self]

theorem expansion_factors_ne_nil {sizes : List ℕ} {ratios : List ℚ}
    (hne : sizes ≠ []) (hlen : ratios.length = sizes.length) :
    expansion_factors sizes ratios ≠ [] := by
  intro h
  have hl := expansion_factors_length sizes ratios hlen
  rw [h] at hl
  exact hne (List.eq_nil_of_length_eq_zero hl.symm)

theorem expansion_factors_pos {sizes : List ℕ} {ratios : List ℚ}
    (hne : sizes ≠ []) (hlen : ratios.length = sizes.length)
    (hs : ∀ s ∈ sizes, 0 < s) (hr : ∀ r ∈ ratios, 0 < r) :
    ∀ x ∈ expansion_factors sizes ratios, 0 < x := by
  have hrne : ratios ≠ [] := by
    intro h
    rw [h] at hlen
    exact hne (List.eq_nil_of_length_eq_zero hlen.symm)
  have hts : 0 < target_size sizes ratios := by
    have h1 : 0 < sizes.sum := List.sum_pos sizes (fun x hx => hs x hx) hne
    have h2 : 0 < ratios.sum := List.sum_pos ratios (fun x hx => hr x hx) hrne
    exact div_pos (by exact_mod_cast h1) h2
  intro x hx
  obtain ⟨i, hi, rfl⟩ := List.getElem_of_mem hx
  have hi1 : i < sizes.length := expansion_factors_length sizes ratios hlen ▸ hi
  have hi2 : i < ratios.length := by rw [hlen]; exact hi1
  have hsi : 0 < sizes[i] := hs _ (List.getElem_mem hi1)
  have hri : 0 < ratios[i] := hr _ (List.getElem_mem hi2)
  simp only [expansion_factors]
  rw [List.getElem_zipWith]
  exact div_pos (mul_pos hts hri) (by exact_mod_cast hsi)

theorem rescaled_factors_one_le {sizes : List ℕ} {ratios : List ℚ}
    (hne : sizes ≠ []) (hlen : ratios.length = sizes.length)
    (hs : ∀ s ∈ sizes, 0 < s) (hr : ∀ r ∈ ratios, 0 < r) :
    ∀ x ∈ rescaled_factors sizes ratios, 1 ≤ x := by
  intro x hx
  have hfp := expansion_factors_pos hne hlen hs hr
  have hfne := expansion_factors_ne_nil hne hlen
  simp only [rescaled_factors] at hx
  obtain ⟨y, hy, rfl⟩ := List.mem_map.1 hx
  have hm : 0 < npMin (expansion_factors sizes ratios) := npMin_pos hfne hfp
  rw [one_le_div hm]
  exact npMin_le hy

theorem npMin_rescaled_factors {sizes : List ℕ} {ratios : List ℚ}
    (hne : sizes ≠ []) (hlen : ratios.length = sizes.length)
    (hs : ∀ s ∈ sizes, 0 < s) (hr : ∀ r ∈ ratios, 0 < r) :
    npMin (rescaled_factors sizes ratios) = 1 := by
  exact npMin_rescaled (expansion_factors_ne_nil hne hlen)
    (expansion_factors_pos hne hlen hs hr)

theorem rescaled_factors_length (sizes : List ℕ) (ratios : List ℚ)
    (hlen : ratios.length = sizes.length) :
    (rescaled_factors sizes ratios).length = sizes.length := by
  simp only [rescaled_factors, List.length_map]
  exact expansion_factors_length sizes ratios hlen

theorem merged_dataset_length (sizes : List ℕ) (ratios : List ℚ)
    (hlen : ratios.length = sizes.length) :
    (_merged_dataset sizes ratios).length = sizes.length := by
  simp only [_merged_dataset, List.length_zipWith,
    rescaled_factors_length sizes ratios hlen, min_self]

theorem merged_counts_ge {sizes : List ℕ} {ratios : List ℚ}
    (hne : sizes ≠ []) (hlen : ratios.length = sizes.length)
    (hs : ∀ s ∈ sizes, 0 < s) (hr : ∀ r ∈ ratios, 0 < r)
    {i : ℕ} (hi : i < sizes.length) :
    (sizes.getD i 0 : ℤ) ≤ (_merged_dataset sizes ratios).getD i 0 := by
  have hg1 := npMin_rescaled_factors hne hlen hs hr
  have hgl := rescaled_factors_length sizes ratios hlen
  have hml := merged_dataset_length sizes ratios hlen
  have hgi : i < (rescaled_factors sizes ratios).length := by rw [hgl]; exact hi
  have hmi : i < (_merged_dataset sizes ratios).length := by rw [hml]; exact hi
  rw [List.getD_eq_getElem (_merged_dataset sizes ratios) 0 hmi,
    List.getD_eq_getElem sizes 0 hi]
  simp only [_merged_dataset, List.getElem_zipWith, hg1, div_one]
  have hx1 : 1 ≤ (rescaled_factors sizes ratios)[i] :=
    rescaled_factors_one_le hne hlen hs hr _ (List.getElem_mem hgi)
  calc ((sizes[i] : ℕ) : ℤ) = ⌈((sizes[i] : ℕ) : ℚ)⌉ := (Int.ceil_natCast _).symm
    _ ≤ ⌈((sizes[i] : ℕ) : ℚ) * (rescaled_factors sizes ratios)[i]⌉ :=
        Int.ceil_le_ceil (le_mul_of_one_le_right (by positivity) hx1)

theorem merged_counts_exists_eq {sizes : List ℕ} {ratios : List ℚ}
    (hne : sizes ≠ []) (hlen : ratios.length = sizes.length)
    (hs : ∀ s ∈ sizes, 0 < s) (hr : ∀ r ∈ ratios, 0 < r) :
    ∃ i, i < sizes.length ∧
      (_merged_dataset sizes ratios).getD i 0 = (sizes.getD i 0 : ℤ) := by
  have hfne := expansion_factors_ne_nil hne hlen
  have hfp := expansion_factors_pos hne hlen hs hr
  have hg1 := npMin_rescaled_factors hne hlen hs hr
  have hml := merged_dataset_length sizes ratios hlen
  have hgl := rescaled_factors_length sizes ratios hlen
  obtain ⟨j, hj, hfj⟩ := List.getElem_of_mem (npMin_mem hfne)
  have hj1 : j < sizes.length := expansion_factors_length sizes ratios hlen ▸ hj
  have hgj : j < (rescaled_factors sizes ratios).length := by rw [hgl]; exact hj1
  have hgval : (rescaled_factors sizes ratios)[j] = 1 := by
    simp only [rescaled_factors]
    rw [List.getElem_map, hfj]
    exact div_self (ne_of_gt (npMin_pos hfne hfp))
  refine ⟨j, hj1, ?_⟩
  have hmj : j < (_merged_dataset sizes ratios).length := by rw [hml]; exact hj1
  rw [List.getD_eq_getElem (_merged_dataset sizes ratios) 0 hmj,
    List.getD_eq_getElem sizes 0 hj1]
  simp only [_merged_dataset, List.getElem_zipWith, hg1, div_one, hgval, mul_one,
    Int.ceil_natCast]

theorem merged_eq_single {sizes : List ℕ} {ratios : List ℚ}
    (hne : sizes ≠ []) (hlen : ratios.length = sizes.length)
    (hs : ∀ s ∈ sizes, 0 < s) (hr : ∀ r ∈ ratios, 0 < r) :
    _merged_dataset sizes ratios = _merged_dataset_single sizes ratios := by
  have h1 := npMin_rescaled_factors hne hlen hs hr
  simp only [_merged_dataset, _merged_dataset_single, h1, div_one]

/-- C1: FullyBalanced sampling over train datasets of sizes 10 and 100:
the normalized ratios are `[1/2, 1/2]`, the target size is 110, the raw
factors are `[5.5, 0.55]`, the factors rescaled by their minimum are
`[10, 1]`, the per-task expanded sample counts are `[100, 100]`, and the
combined train dataset obtained by concatenating the two expanded
datasets has length 200. -/
theorem fullyBalanced_worked_example :
    normalizeRatios (List.replicate 2 (1:ℚ)) = [1/2, 1/2]
    ∧ target_size [10, 100] [1/2, 1/2] = 110
    ∧ expansion_factors [10, 100] [1/2, 1/2] = [11/2, 11/20]
    ∧ rescaled_factors [10, 100] [1/2, 1/2] = [10, 1]
    ∧ _merged_dataset [10, 100] [1/2, 1/2] = [100, 100]
    ∧ ∃ c, _combine_datasets_fullyBalanced [natDataset 10, natDataset 100] = .ok c
        ∧ c.size = 200 := by
  have h1 : normalizeRatios (List.replicate 2 (1:ℚ)) = [1/2, 1/2] := by
    simp [normalizeRatios, List.replicate]; norm_num
  have h2 : _merged_dataset [10, 100] [1/2, 1/2] = [100, 100] := by
    simp [_merged_dataset, rescaled_factors, expansion_factors, target_size,
      npMin, min_def]
    norm_num [Int.ceil_eq_iff]
  refine ⟨h1, ?_, ?_, ?_, h2, ?_⟩
  · simp [target_size]; norm_num
  · simp [expansion_factors, target_size]; norm_num
  · simp [rescaled_factors, expansion_factors, target_size, npMin, min_def]
    norm_num
  · have h3 : List.map (fun x => x.size) [natDataset 10, natDataset 100]
        = [10, 100] := rfl
    simp only [_combine_datasets_fullyBalanced, h3, List.length_cons,
      List.length_nil, h1, h2]
    simp only [List.zipWith, show Int.toNat 100 = 100 from rfl]
    have h4 : ∃ e1, expand_dataset (natDataset 10) 100 = .ok e1 ∧ e1.size = 100 := by
      simp [expand_dataset, expandedDataset, natDataset]
    have h5 : ∃ e2, expand_dataset (natDataset 100) 100 = .ok e2 ∧ e2.size = 100 := by
      simp [expand_dataset, expandedDataset, natDataset]
    obtain ⟨e1, he1, hs1⟩ := h4
    obtain ⟨e2, he2, hs2⟩ := h5
    rw [he1, he2]
    refine ⟨_, rfl, ?_⟩
    simp [ConcatDataset, List.mapM.loop, hs1, hs2]

/-- C5: after the expansion factors are divided once by their minimum, the
minimum of the rescaled factors is exactly 1, so the second division by
the minimum in the count formula changes nothing: for positive sizes and
positive ratios the two-step `_merged_dataset` formula produces the same
counts as the single-step `ceil(s_i * f_i)` formula. -/
theorem double_min_normalization_redundant (sizes : List ℕ) (ratios : List ℚ)
    (hne : sizes ≠ []) (hlen : ratios.length = sizes.length)
    (hs : ∀ s ∈ sizes, 0 < s) (hr : ∀ r ∈ ratios, 0 < r) :
    npMin (rescaled_factors sizes ratios) = 1
    ∧ _merged_dataset sizes ratios = _merged_dataset_single sizes ratios :=
  ⟨npMin_rescaled_factors hne hlen hs hr, merged_eq_single hne hlen hs hr⟩

/-- Witness for C5 at sizes `[10, 100]` and ratios `[1/2, 1/2]`. -/
theorem double_min_normalization_redundant_witness :
    npMin (rescaled_factors [10, 100] [1/2, 1/2]) = 1
    ∧ _merged_dataset [10, 100] [1/2, 1/2]
        = _merged_dataset_single [10, 100] [1/2, 1/2] :=
  double_min_normalization_redundant [10, 100] [1/2, 1/2] (by decide)
    (by decide) (by decide) (by norm_num)

/-- C4: for every non-empty list of positive per-task train sizes and
every positive ratio vector (as produced by both recognized sampling
policies), the resampling counts dominate the original sizes, at least
one task keeps exactly its original size, and consequently the
`SizeMismatch` branch of `expand_dataset` is unreachable when the
composer expands each dataset to its computed count. -/
theorem resampling_counts_safe (sizes : List ℕ) (ratios : List ℚ)
    (hne : sizes ≠ []) (hlen : ratios.length = sizes.length)
    (hs : ∀ s ∈ sizes, 0 < s) (hr : ∀ r ∈ ratios, 0 < r) :
    (∀ i, i < sizes.length →
      (sizes.getD i 0 : ℤ) ≤ (_merged_dataset sizes ratios).getD i 0)
    ∧ (∃ i, i < sizes.length ∧
        (_merged_dataset sizes ratios).getD i 0 = (sizes.getD i 0 : ℤ))
    ∧ ∀ (μ : Type) (d : Dataset ℕ μ) (i : ℕ), i < sizes.length →
        d.size = sizes.getD i 0 →
        (expand_dataset d ((_merged_dataset sizes ratios).getD i 0).toNat).isOk
          = true := by
  refine ⟨fun i hi => merged_counts_ge hne hlen hs hr hi,
    merged_counts_exists_eq hne hlen hs hr, ?_⟩
  intro μ d i hi hd
  have hge := merged_counts_ge hne hlen hs hr hi
  have h0 : (0:ℤ) ≤ (_merged_dataset sizes ratios).getD i 0 :=
    le_trans (Int.natCast_nonneg _) hge
  have hle : d.size ≤ ((_merged_dataset sizes ratios).getD i 0).toNat := by
    rw [hd]
    exact (Int.le_toNat h0).mpr hge
  simp only [expand_dataset, gt_iff_lt]
  rw [if_neg (not_lt.2 hle)]
  rfl

/-- Witness for C4 at sizes `[10, 100]` and ratios `[1/2, 1/2]`. -/
theorem resampling_counts_safe_witness :
    (∀ i, i < ([10, 100] : List ℕ).length →
      (([10, 100] : List ℕ).getD i 0 : ℤ)
        ≤ (_merged_dataset [10, 100] [1/2, 1/2]).getD i 0)
    ∧ (∃ i, i < ([10, 100] : List ℕ).length ∧
        (_merged_dataset [10, 100] [1/2, 1/2]).getD i 0
          = (([10, 100] : List ℕ).getD i 0 : ℤ))
    ∧ ∀ (μ : Type) (d : Dataset ℕ μ) (i : ℕ), i < ([10, 100] : List ℕ).length →
        d.size = ([10, 100] : List ℕ).getD i 0 →
        (expand_dataset d
          ((_merged_dataset [10, 100] [1/2, 1/2]).getD i 0).toNat).isOk = true :=
  resampling_counts_safe [10, 100] [1/2, 1/2] (by decide) (by decide)
    (by decide) (by norm_num)

/-- C2 counterexample: for the empty (but sized) dataset and `n = 1 ≥ 0 =
len(d)`, construction succeeds but access at index 0 raises
`ZeroDivision` (Python's `0 % 0`), which is not the result of accessing
the wrapped dataset at `0 mod len(d)`. -/
theorem expand_mod_access_empty_counterexample :
    (expand_dataset (natDataset 0) 1).isOk = true
    ∧ getExpanded (natDataset 0) 1 0
        ≠ (natDataset 0).get (0 % ((natDataset 0).size : ℤ)) := by
  refine ⟨rfl, ?_⟩
  decide

/-- C2 (amended to require a non-empty dataset): for every dataset `d`
with `0 < len(d)` and every `n ≥ len(d)`, `expand(d, n)` succeeds,
reports length `n`, and access at each `i` in `[0, n)` returns exactly
the wrapped dataset's item at `i mod len(d)`. -/
theorem expand_mod_access {α μ : Type} (d : Dataset α μ) (n : ℕ)
    (hd : 0 < d.size) (hn : d.size ≤ n) :
    ∃ e, expand_dataset d n = .ok e ∧ e.size = n
      ∧ ∀ i : ℤ, 0 ≤ i → i < (n : ℤ) → e.get i = d.get (i % (d.size : ℤ)) := by
  simp only [expand_dataset, gt_iff_lt]
  rw [if_neg (not_lt.2 hn)]
  refine ⟨_, rfl, rfl, ?_⟩
  intro i h0 hlt
  have h1 : ¬ (i < 0 ∨ (n : ℤ) ≤ i) := by
    push_neg
    exact ⟨h0, hlt⟩
  rw [expandedDataset_get, if_neg h1, if_neg hd.ne']

/-- Witness for C2 (amended) at `d = natDataset 3`, `n = 7`, evaluated at
index 5. -/
theorem expand_mod_access_witness :
    (∃ e, expand_dataset (natDataset 3) 7 = .ok e ∧ e.size = 7
      ∧ ∀ i : ℤ, 0 ≤ i → i < (7 : ℤ) →
          e.get i = (natDataset 3).get (i % ((natDataset 3).size : ℤ)))
    ∧ (natDataset 3).get ((5 : ℤ) % (((natDataset 3).size : ℕ) : ℤ)) = .ok 2 := by
  refine ⟨expand_mod_access (natDataset 3) 7 (by decide) (by decide), ?_⟩
  decide

/-- C7: for every dataset `d` and `n ≥ len(d)`, item access on the
expanded dataset at any index outside `[0, n)` — in particular at `n` and
at `-1` — fails with `IndexOutOfRange` (negative indices do not wrap). -/
theorem expand_out_of_range {α μ : Type} (d : Dataset α μ) (n : ℕ)
    (hn : d.size ≤ n) :
    ∃ e, expand_dataset d n = .ok e
      ∧ e.get (n : ℤ) = .error .IndexOutOfRange
      ∧ e.get (-1) = .error .IndexOutOfRange
      ∧ ∀ i : ℤ, (i < 0 ∨ (n : ℤ) ≤ i) → e.get i = .error .IndexOutOfRange := by
  simp only [expand_dataset, gt_iff_lt]
  rw [if_neg (not_lt.2 hn)]
  refine ⟨_, rfl, ?_, ?_, ?_⟩
  · rw [expandedDataset_get, if_pos (Or.inr le_rfl)]
  · rw [expandedDataset_get, if_pos (Or.inl (by norm_num))]
  · intro i hi
    rw [expandedDataset_get, if_pos hi]

/-- Witness for C7 at `d = natDataset 3`, `n = 5`. -/
theorem expand_out_of_range_witness :
    ∃ e, expand_dataset (natDataset 3) 5 = .ok e
      ∧ e.get (5 : ℤ) = .error .IndexOutOfRange
      ∧ e.get (-1) = .error .IndexOutOfRange
      ∧ ∀ i : ℤ, (i < 0 ∨ (5 : ℤ) ≤ i) → e.get i = .error .IndexOutOfRange :=
  expand_out_of_range (natDataset 3) 5 (by decide)

/-- C6: each size-constrained transform enforces its size precondition
with `SizeMismatch` and accepts equality at the boundary: `expand(d, n)`
fails for `n < len(d)`, `first_n(d, m)` and `sample_n(d, m, seed)` fail
for `m > len(d)`, and each constructor succeeds at `n = len(d)`. -/
theorem size_preconditions {α μ : Type} (d : Dataset α μ) (n m seed : ℕ)
    (hn : n < d.size) (hm : d.size < m) :
    expand_dataset d n = .error .SizeMismatch
    ∧ (expand_dataset d d.size).isOk = true
    ∧ first_n_transform d m = .error .SizeMismatch
    ∧ (first_n_transform d d.size).isOk = true
    ∧ sample_n_transform d m seed = .error .SizeMismatch
    ∧ (sample_n_transform d d.size seed).isOk = true := by
  refine ⟨?_, ?_, ?_, ?_, ?_, ?_⟩
  · simp only [expand_dataset, gt_iff_lt]
    rw [if_pos hn]
  · simp only [expand_dataset, gt_iff_lt]
    rw [if_neg (lt_irrefl _)]
    rfl
  · simp only [first_n_transform]
    rw [if_pos hm]
  · simp only [first_n_transform]
    rw [if_neg (lt_irrefl _)]
    rfl
  · simp only [sample_n_transform]
    rw [if_pos hm]
  · simp only [sample_n_transform]
    rw [if_neg (lt_irrefl _)]
    rfl

/-- Witness for C6 at `d = natDataset 2`, `n = 1`, `m = 3`, `seed = 0`. -/
theorem size_preconditions_witness :
    expand_dataset (natDataset 2) 1 = .error .SizeMismatch
    ∧ (expand_dataset (natDataset 2) (natDataset 2).size).isOk = true
    ∧ first_n_transform (natDataset 2) 3 = .error .SizeMismatch
    ∧ (first_n_transform (natDataset 2) (natDataset 2).size).isOk = true
    ∧ sample_n_transform (natDataset 2) 3 0 = .error .SizeMismatch
    ∧ (sample_n_transform (natDataset 2) (natDataset 2).size 0).isOk = true :=
  size_preconditions (natDataset 2) 1 3 0 (by decide) (by decide)

/-- C9: two constructions of `sample_n` with the same seed over datasets
of the same length draw the same sequence of source indices; the drawn
indices are `n` pairwise-distinct valid indices; and for equivalent
datasets (same item accessor) the resulting items agree at every logical
index. -/
theorem sample_n_deterministic {α μ : Type} (d1 d2 : Dataset α μ)
    (n seed : ℕ) (hsz : d1.size = d2.size) (hn : n ≤ d1.size) :
    np_choice d1.size n seed = np_choice d2.size n seed
    ∧ (np_choice d1.size n seed).length = n
    ∧ (np_choice d1.size n seed).Nodup
    ∧ (∀ j ∈ np_choice d1.size n seed, j < d1.size)
    ∧ (d1.get = d2.get →
        ∀ e1 e2, sample_n_transform d1 n seed = .ok e1 →
          sample_n_transform d2 n seed = .ok e2 →
          ∀ i : ℤ, e1.get i = e2.get i) := by
  refine ⟨by rw [hsz], ?_, ?_, ?_, ?_⟩
  · simp only [np_choice, List.length_take, List.length_rotate,
      List.length_range]
    exact Nat.min_eq_left hn
  · exact ((List.take_sublist n _).nodup
      (List.nodup_rotate.mpr (List.nodup_range _)))
  · intro j hj
    have hj1 : j ∈ (List.range d1.size).rotate seed :=
      (List.take_sublist n _).subset hj
    exact List.mem_range.1 (List.mem_rotate.1 hj1)
  · intro hget e1 e2 h1 h2 i
    simp only [sample_n_transform] at h1 h2
    rw [if_neg (not_lt.2 hn)] at h1
    rw [if_neg (not_lt.2 (hsz ▸ hn))] at h2
    obtain rfl := (Except.ok.inj h1).symm
    obtain rfl := (Except.ok.inj h2).symm
    rw [sampledDataset_get, sampledDataset_get, hsz, hget]

/-- Witness for C9 at two copies of `natDataset 5`, `n = 3`, `seed = 7`. -/
theorem sample_n_deterministic_witness :
    np_choice (natDataset 5).size 3 7 = np_choice (natDataset 5).size 3 7
    ∧ (np_choice (natDataset 5).size 3 7).length = 3
    ∧ (np_choice (natDataset 5).size 3 7).Nodup
    ∧ (∀ j ∈ np_choice (natDataset 5).size 3 7, j < (natDataset 5).size)
    ∧ ((natDataset 5).get = (natDataset 5).get →
        ∀ e1 e2, sample_n_transform (natDataset 5) 3 7 = .ok e1 →
          sample_n_transform (natDataset 5) 3 7 = .ok e2 →
          ∀ i : ℤ, e1.get i = e2.get i) :=
  sample_n_deterministic (natDataset 5) (natDataset 5) 3 7 rfl (by decide)

/-- C10: `dataset_transform(d, fn)` changes only item access — the
reported length and the metadata sequence of the decorated dataset are
exactly those of the wrapped dataset. -/
theorem dataset_transform_frame {α β μ : Type} (d : Dataset α μ)
    (fn : α → Except DatasetError β) (copy_data : Bool) :
    (dataset_transform d fn copy_data).size = d.size
    ∧ (dataset_transform d fn copy_data).atoms_metadata = d.atoms_metadata :=
  ⟨rfl, rfl⟩

theorem except_bind_ok {E A B : Type} {x : Except E A} {f : A → Except E B}
    {b : B} (h : x.bind f = .ok b) : ∃ a, x = .ok a ∧ f a = .ok b := by
  cases x with
  | ok a => exact ⟨a, rfl, h⟩
  | error e => simp [Except.bind] at h

theorem foldlM_ok_invariant {P : Data → Prop}
    (f : Data → String → Except DatasetError Data)
    (hf : ∀ d k d', f d k = .ok d' → P d → P d') :
    ∀ (l : List String) (d b : Data),
      List.foldlM f d l = .ok b → P d → P b := by
  intro l
  induction l with
  | nil =>
    intro d b h hP
    simp only [List.foldlM_nil, pure, Except.pure, Except.ok.injEq] at h
    rwa [← h]
  | cons k ks ih =>
    intro d b h hP
    rw [List.foldlM_cons] at h
    obtain ⟨d', h1, h2⟩ := except_bind_ok h
    exact ih d' b h2 (hf d k d' h1 hP)

theorem upd_graph_frame {d d' : Data} {k : String} {oh : List Bool}
    (h : _update_graph_value d k oh = .ok d') :
    d'.task_idx = d.task_idx ∧ d'.task_mask = d.task_mask
      ∧ d'.attrs = d.attrs := by
  cases hk : d.attrs.lookup k with
  | none => simp [_update_graph_value, hk] at h
  | some v =>
    match v with
    | [] => simp [_update_graph_value, hk] at h
    | [x] =>
      simp only [_update_graph_value, hk, Except.ok.injEq] at h
      rw [← h]
      exact ⟨rfl, rfl, rfl⟩
    | x :: y :: t => simp [_update_graph_value, hk] at h

theorem upd_node_frame {d d' : Data} {k : String} {oh : List Bool}
    (h : _update_node_value d k oh = .ok d') :
    d'.task_idx = d.task_idx ∧ d'.task_mask = d.task_mask
      ∧ d'.attrs = d.attrs := by
  cases hk : d.attrs.lookup k with
  | none => simp [_update_node_value, hk] at h
  | some v =>
    simp only [_update_node_value, hk, Except.ok.injEq] at h
    rw [← h]
    exact ⟨rfl, rfl, rfl⟩

theorem oneHot_length (t k : ℕ) : (oneHot t k).length = t := by
  simp [oneHot]

theorem oneHot_getD (t k j : ℕ) :
    ((oneHot t k).getD j false = true) ↔ (j = k ∧ j < t) := by
  by_cases hj : j < t
  · have hlen : j < (oneHot t k).length := by rw [oneHot_length]; exact hj
    rw [List.getD_eq_getElem _ _ hlen]
    simp only [oneHot, List.getElem_map, List.getElem_range,
      decide_eq_true_iff]
    simp [hj]
  · have hge : (oneHot t k).length ≤ j := by rw [oneHot_length]; omega
    rw [List.getD_eq_default _ _ hge]
    simp [hj]

theorem rowOf_length (oh : List Bool) (x : ℚ) : (rowOf oh x).length = oh.length := by
  simp [rowOf]

theorem rowOf_oneHot_getD {t k : ℕ} (hk : k < t) (x : ℚ) (j : ℕ) :
    (rowOf (oneHot t k) x).getD j 0 = if j = k then x else 0 := by
  by_cases hj : j < t
  · have hlen : j < (rowOf (oneHot t k) x).length := by
      rw [rowOf_length, oneHot_length]; exact hj
    rw [List.getD_eq_getElem _ _ hlen]
    simp only [rowOf, oneHot, List.getElem_map, List.getElem_range]
    by_cases hjk : j = k <;> simp [hjk]
  · have hge : (rowOf (oneHot t k) x).length ≤ j := by
      rw [rowOf_length, oneHot_length]; omega
    rw [List.getD_eq_default _ _ hge]
    have hne : j ≠ k := by omega
    simp [hne]

/-- C3: every item produced by the task-tagged dataset for the task at
position `task_idx` among `total_num_tasks` tasks has its `task_idx`
field set to `task_idx` and a `task_mask` of length `total_num_tasks`
(stored with a leading singleton dimension) whose entries are `true`
exactly at position `task_idx`. -/
theorem tagged_items_task_mask {μ : Type} (d : Dataset Data μ)
    (task_idx total_num_tasks : ℕ) (cfg : OneHotTargetsConfig)
    (ht : task_idx < total_num_tasks) (i : ℤ) (item : Data)
    (h : (tag_task d task_idx total_num_tasks cfg).get i = .ok item) :
    item.task_idx = some task_idx
    ∧ ∃ mask, item.task_mask = some [mask]
        ∧ mask.length = total_num_tasks
        ∧ ∀ j, (mask.getD j false = true ↔ j = task_idx) := by
  simp only [tag_task, dataset_transform, ite_self] at h
  obtain ⟨data0, h0, htr⟩ := except_bind_ok h
  simp only [_transform] at htr
  rw [if_neg (not_le.2 ht)] at htr
  obtain ⟨d2, hg, hn2⟩ := except_bind_ok htr
  have h1 : d2.task_idx = some task_idx
      ∧ d2.task_mask = some [oneHot total_num_tasks task_idx] :=
    @foldlM_ok_invariant
      (fun x => x.task_idx = some task_idx
        ∧ x.task_mask = some [oneHot total_num_tasks task_idx])
      _ (fun a k a' hupd hP => by
        obtain ⟨e1, e2, _⟩ := upd_graph_frame hupd
        exact ⟨e1.trans hP.1, e2.trans hP.2⟩)
      cfg.graph_level _ d2 hg ⟨rfl, rfl⟩
  have h2 : item.task_idx = some task_idx
      ∧ item.task_mask = some [oneHot total_num_tasks task_idx] :=
    @foldlM_ok_invariant
      (fun x => x.task_idx = some task_idx
        ∧ x.task_mask = some [oneHot total_num_tasks task_idx])
      _ (fun a k a' hupd hP => by
        obtain ⟨e1, e2, _⟩ := upd_node_frame hupd
        exact ⟨e1.trans hP.1, e2.trans hP.2⟩)
      cfg.node_level d2 item hn2 h1
  refine ⟨h2.1, oneHot total_num_tasks task_idx, h2.2, oneHot_length _ _,
    fun j => ?_⟩
  rw [oneHot_getD]
  constructor
  · rintro ⟨hjk, _⟩
    exact hjk
  · intro hjk
    exact ⟨hjk, hjk ▸ ht⟩

theorem string_append_right_cancel {a b c : String} (h : a ++ c = b ++ c) :
    a = b := by
  have hd := congrArg String.data h
  rw [String.data_append, String.data_append] at hd
  exact congrArg String.mk (List.append_cancel_right hd)

theorem lookup_cons_self (k : String) (v : List (List ℚ))
    (rest : List (String × List (List ℚ))) :
    List.lookup k ((k, v) :: rest) = some v := by
  simp [List.lookup]

theorem lookup_cons_ne {q k : String} (hne : q ≠ k) (v : List (List ℚ))
    (rest : List (String × List (List ℚ))) :
    List.lookup q ((k, v) :: rest) = List.lookup q rest := by
  simp [List.lookup, beq_false_of_ne hne]

theorem upd_graph_establish {key : String} {x : ℚ} {oh : List Bool}
    {d d' : Data} (hx : d.attrs.lookup key = some [x])
    (h : _update_graph_value d key oh = .ok d') :
    d'.attrs = d.attrs
      ∧ d'.onehot_attrs.lookup (key ++ "_onehot") = some [rowOf oh x] := by
  simp only [_update_graph_value, hx, Except.ok.injEq] at h
  rw [← h]
  exact ⟨rfl, lookup_cons_self _ _ _⟩

theorem upd_graph_pres_lookup {a0 : List (String × List ℚ)} {key : String}
    {x : ℚ} {oh : List Bool} (hx : a0.lookup key = some [x]) {d d' : Data}
    {k : String} (h : _update_graph_value d k oh = .ok d')
    (ha : d.attrs = a0)
    (hm : d.onehot_attrs.lookup (key ++ "_onehot") = some [rowOf oh x]) :
    d'.attrs = a0
      ∧ d'.onehot_attrs.lookup (key ++ "_onehot") = some [rowOf oh x] := by
  cases hk : d.attrs.lookup k with
  | none => simp [_update_graph_value, hk] at h
  | some v =>
    match v with
    | [] => simp [_update_graph_value, hk] at h
    | [y] =>
      simp only [_update_graph_value, hk, Except.ok.injEq] at h
      rw [← h]
      refine ⟨ha, ?_⟩
      by_cases hkk : k = key
      · subst hkk
        rw [ha, hx] at hk
        have hxy : x = y := by simpa using hk
        subst hxy
        exact lookup_cons_self _ _ _
      · have hne : key ++ "_onehot" ≠ k ++ "_onehot" := fun hh =>
          hkk (string_append_right_cancel hh).symm
        rw [lookup_cons_ne hne]
        exact hm
    | y :: z :: t => simp [_update_graph_value, hk] at h

theorem upd_node_pres_lookup {a0 : List (String × List ℚ)} {key : String}
    {x : ℚ} {oh : List Bool} (hx : a0.lookup key = some [x]) {d d' : Data}
    {k : String} (h : _update_node_value d k oh = .ok d')
    (ha : d.attrs = a0)
    (hm : d.onehot_attrs.lookup (key ++ "_onehot") = some [rowOf oh x]) :
    d'.attrs = a0
      ∧ d'.onehot_attrs.lookup (key ++ "_onehot") = some [rowOf oh x] := by
  cases hk : d.attrs.lookup k with
  | none => simp [_update_node_value, hk] at h
  | some v =>
    simp only [_update_node_value, hk, Except.ok.injEq] at h
    rw [← h]
    refine ⟨ha, ?_⟩
    by_cases hkk : k = key
    · subst hkk
      rw [ha, hx] at hk
      have hvx : [x] = v := by simpa using hk
      subst hvx
      exact lookup_cons_self _ _ _
    · have hne : key ++ "_onehot" ≠ k ++ "_onehot" := fun hh =>
        hkk (string_append_right_cancel hh).symm
      rw [lookup_cons_ne hne]
      exact hm

/-- C8: for every field name configured in `one_hot_targets.graph_level`,
an item produced by the tagged dataset carries a `<field>_onehot` vector
of length `total_num_tasks` equal to the scalar field value multiplied
elementwise by the boolean one-hot vector — the original value in the
`task_idx` slot and `0` everywhere else — and item access fails whenever
the named field is absent on the wrapped item. -/
theorem tagged_graph_onehot {μ : Type} (d : Dataset Data μ)
    (task_idx total_num_tasks : ℕ) (cfg : OneHotTargetsConfig) (key : String)
    (ht : task_idx < total_num_tasks) (hk : key ∈ cfg.graph_level) :
    (∀ (i : ℤ) (data0 item : Data) (x : ℚ),
      d.get i = .ok data0 →
      data0.attrs.lookup key = some [x] →
      (tag_task d task_idx total_num_tasks cfg).get i = .ok item →
      item.onehot_attrs.lookup (key ++ "_onehot")
          = some [rowOf (oneHot total_num_tasks task_idx) x]
        ∧ (rowOf (oneHot total_num_tasks task_idx) x).length = total_num_tasks
        ∧ ∀ j, (rowOf (oneHot total_num_tasks task_idx) x).getD j 0
            = if j = task_idx then x else 0)
    ∧ (∀ (i : ℤ) (data0 : Data),
      d.get i = .ok data0 →
      data0.attrs.lookup key = none →
      ∀ item, (tag_task d task_idx total_num_tasks cfg).get i ≠ .ok item) := by
  constructor
  · intro i data0 item x h0 hx h
    simp only [tag_task, dataset_transform, ite_self] at h
    obtain ⟨data1, h01, htr⟩ := except_bind_ok h
    rw [h0] at h01
    have hdd : data0 = data1 := Except.ok.inj h01
    subst hdd
    simp only [_transform] at htr
    rw [if_neg (not_le.2 ht)] at htr
    obtain ⟨d2, hg, hn2⟩ := except_bind_ok htr
    obtain ⟨s, t, hsplit⟩ := List.append_of_mem hk
    rw [hsplit, List.foldlM_append] at hg
    obtain ⟨dmid, hmidfold, hrest⟩ := except_bind_ok hg
    rw [List.foldlM_cons] at hrest
    obtain ⟨dkey, hkey, hrest2⟩ := except_bind_ok hrest
    have hattrs_mid : dmid.attrs = data0.attrs :=
      @foldlM_ok_invariant (fun z => z.attrs = data0.attrs) _
        (fun a k a' hupd hP => (upd_graph_frame hupd).2.2.trans hP)
        s _ dmid hmidfold rfl
    have hxmid : dmid.attrs.lookup key = some [x] := by
      rw [hattrs_mid]; exact hx
    have hest := upd_graph_establish hxmid hkey
    have hQ : dkey.attrs = data0.attrs
        ∧ dkey.onehot_attrs.lookup (key ++ "_onehot")
            = some [rowOf (oneHot total_num_tasks task_idx) x] :=
      ⟨hest.1.trans hattrs_mid, hest.2⟩
    have hd2 : d2.attrs = data0.attrs
        ∧ d2.onehot_attrs.lookup (key ++ "_onehot")
            = some [rowOf (oneHot total_num_tasks task_idx) x] :=
      @foldlM_ok_invariant
        (fun z => z.attrs = data0.attrs
          ∧ z.onehot_attrs.lookup (key ++ "_onehot")
              = some [rowOf (oneHot total_num_tasks task_idx) x]) _
        (fun a k a' hupd hP => upd_graph_pres_lookup hx hupd hP.1 hP.2)
        t _ d2 hrest2 hQ
    have hitem : item.attrs = data0.attrs
        ∧ item.onehot_attrs.lookup (key ++ "_onehot")
            = some [rowOf (oneHot total_num_tasks task_idx) x] :=
      @foldlM_ok_invariant
        (fun z => z.attrs = data0.attrs
          ∧ z.onehot_attrs.lookup (key ++ "_onehot")
              = some [rowOf (oneHot total_num_tasks task_idx) x]) _
        (fun a k a' hupd hP => upd_node_pres_lookup hx hupd hP.1 hP.2)
        cfg.node_level d2 item hn2 hd2
    refine ⟨hitem.2, ?_, fun j => rowOf_oneHot_getD ht x j⟩
    rw [rowOf_length, oneHot_length]
  · intro i data0 h0 hx item h
    simp only [tag_task, dataset_transform, ite_self] at h
    obtain ⟨data1, h01, htr⟩ := except_bind_ok h
    rw [h0] at h01
    have hdd : data0 = data1 := Except.ok.inj h01
    subst hdd
    simp only [_transform] at htr
    rw [if_neg (not_le.2 ht)] at htr
    obtain ⟨d2, hg, _⟩ := except_bind_ok htr
    obtain ⟨s, t, hsplit⟩ := List.append_of_mem hk
    rw [hsplit, List.foldlM_append] at hg
    obtain ⟨dmid, hmidfold, hrest⟩ := except_bind_ok hg
    rw [List.foldlM_cons] at hrest
    obtain ⟨dkey, hkey, _⟩ := except_bind_ok hrest
    have hattrs_mid : dmid.attrs = data0.attrs :=
      @foldlM_ok_invariant (fun z => z.attrs = data0.attrs) _
        (fun a k a' hupd hP => (upd_graph_frame hupd).2.2.trans hP)
        s _ dmid hmidfold rfl
    have hxmid : dmid.attrs.lookup key = none := by
      rw [hattrs_mid]; exact hx
    simp [_update_graph_value, hxmid] at hkey

/-- A concrete item with a single graph-level scalar field `y = 3` (used
for witnesses). -/
def dataExample : Data :=
  { attrs := [("y", [3])]
  , task_idx := none
  , task_mask := none
  , onehot_attrs := [] }

/-- The item `dataExample` after tagging with `task_idx = 1` of 3 tasks
and one-hot expansion of the graph field `y` (used for witnesses). -/
def itemExample : Data :=
  { attrs := [("y", [3])]
  , task_idx := some 1
  , task_mask := some [[false, true, false]]
  , onehot_attrs := [("y_onehot", [[0, 3, 0]])] }

/-- Witness for C3 on a one-item dataset, task 1 of 3. -/
theorem tagged_items_task_mask_witness :
    itemExample.task_idx = some 1
    ∧ ∃ mask, itemExample.task_mask = some [mask]
        ∧ mask.length = 3
        ∧ ∀ j, (mask.getD j false = true ↔ j = 1) :=
  tagged_items_task_mask (singletonDataset dataExample) 1 3 ⟨["y"], []⟩
    (by decide) 0 itemExample rfl

/-- Witness for C8 on a one-item dataset, task 1 of 3, graph field `y`. -/
theorem tagged_graph_onehot_witness :
    (∀ (i : ℤ) (data0 item : Data) (x : ℚ),
      (singletonDataset dataExample).get i = .ok data0 →
      data0.attrs.lookup "y" = some [x] →
      (tag_task (singletonDataset dataExample) 1 3 ⟨["y"], []⟩).get i
          = .ok item →
      item.onehot_attrs.lookup ("y" ++ "_onehot")
          = some [rowOf (oneHot 3 1) x]
        ∧ (rowOf (oneHot 3 1) x).length = 3
        ∧ ∀ j, (rowOf (oneHot 3 1) x).getD j 0 = if j = 1 then x else 0)
    ∧ (∀ (i : ℤ) (data0 : Data),
      (singletonDataset dataExample).get i = .ok data0 →
      data0.attrs.lookup "y" = none →
      ∀ item, (tag_task (singletonDataset dataExample) 1 3 ⟨["y"], []⟩).get i
          ≠ .ok item) :=
  tagged_graph_onehot (singletonDataset dataExample) 1 3 ⟨["y"], []⟩ "y"
    (by decide) (by decide)
